import Mathlib

/-
Verification of the eth-multicall library (src/helpers.ts, src/index.ts)
against its natural-language specification.

The TypeScript source is shallowly embedded below:
- JavaScript objects (ordered string-keyed maps with insertion-order
  semantics) are modelled as association lists together with the exact
  operations the source uses: property read, spread-insert, lodash omit,
  and object spread of an arbitrary value.
- JavaScript runtime values reaching the modelled code paths are the
  inductive type JsVal (undefined, string, object).  Numbers never flow
  through the modelled result pipeline: decoded values are produced by an
  abstract external decoder and are opaque JsVal terms.
- Promises: every dispatched chunk / direct call is awaited before the
  code inspects any outcome (Promise.all barrier joins), and the only
  observable effect of a rejection is which error aborts the invocation.
  Async code is therefore modelled by explicit Except values, with
  left-to-right sequencing (exceptMapM) standing in for Promise.all:
  both agree on whether an error occurs, and the single error surfaced
  is the first rejection in list order.
- The aggregator endpoint (MultiCall.rawCall) is abstracted, as the spec
  directs, by a deterministic per-call result function together with a
  whole-chunk failure predicate: a chunk either fails wholesale or
  returns one (success, data) pair per call, positionally.
- The recursion of rawCallInChunks is given explicit fuel.  The source
  recursion always passes the tail of the normalized ladder, so the
  ladder length strictly decreases; the fuel-adequacy theorem below
  proves that fuel equal to the ladder length is never exhausted, which
  is exactly the bounded-recursion-depth claim of the spec.
-/

/-! ## JavaScript object model -/

/-- Association-list model of a JavaScript object: string keys in
insertion order, each key occurring at most once in well-formed objects. -/
abbrev Obj (v : Type) := List (String × v)

/-- Property read obj[k]: the value at the first occurrence of the key. -/
def objGet {v} (o : Obj v) (k : String) : Option v :=
  (o.find? (fun p => p.1 = k)).map (fun p => p.2)

/-- Assignment via object-literal spread, as in the source patterns
x7b ...acc, [key]: value x7d: an existing key keeps its position and is
updated in place, a new key is appended at the end. -/
def objInsert {v} (o : Obj v) (k : String) (x : v) : Obj v :=
  if o.any (fun p => p.1 = k) then
    o.map (fun p => if p.1 = k then (k, x) else p)
  else o ++ [(k, x)]

/-- lodash omit with a single key: drop the key, keep the rest in order. -/
def objOmit {v} (o : Obj v) (k : String) : Obj v :=
  o.filter (fun p => p.1 ≠ k)

/-- JavaScript runtime values flowing through the modelled pipeline. -/
inductive JsVal where
  | undef
  | str (s : String)
  | obj (fields : List (String × JsVal))

/-- Spread of one object into another: keys of the second are inserted
left to right into the first, matching JS object-literal spread. -/
def objSpread (a : Obj JsVal) (b : Obj JsVal) : Obj JsVal :=
  b.foldl (fun acc p => objInsert acc p.1 p.2) a

/-- Object spread of an arbitrary value, as in x7b ...noData, ...big.data x7d:
spreading undefined adds nothing, spreading an object adds its fields,
and spreading a string adds its character-index properties
("0" ↦ first character, and so on). -/
def jsSpreadVal (acc : Obj JsVal) : JsVal → Obj JsVal
  | .undef => acc
  | .str s =>
      (s.toList.enum).foldl
        (fun a p => objInsert a (toString p.1) (.str (String.singleton p.2))) acc
  | .obj fields => fields.foldl (fun a p => objInsert a p.1 p.2) acc

/-! ## Sequenced fallible traversal

Promise.all over a list of already-started fallible computations, as used
by the source, is observationally a barrier join: the invocation fails
exactly when some element fails, and the error surfaced is a rejection of
one of the elements.  exceptMapM is the sequential counterpart used by the
embedding. -/

/-- Left-to-right fallible map: the first error aborts the traversal. -/
def exceptMapM {ε α β : Type} (g : α → Except ε β) : List α → Except ε (List β)
  | [] => .ok []
  | x :: xs =>
    match g x with
    | .error e => .error e
    | .ok y =>
      match exceptMapM g xs with
      | .error e => .error e
      | .ok ys => .ok (y :: ys)

theorem exceptMapM_congr {ε α β : Type} {g₁ g₂ : α → Except ε β} {l : List α}
    (h : ∀ x ∈ l, g₁ x = g₂ x) : exceptMapM g₁ l = exceptMapM g₂ l := by
  induction l with
  | nil => rfl
  | cons x xs ih =>
    simp only [exceptMapM]
    rw [h x (by simp), ih (fun y hy => h y (by simp [hy]))]

theorem exceptMapM_ok_of_all_ok {ε α β : Type} {g : α → Except ε β} {l : List α}
    (h : ∀ x ∈ l, ∃ y, g x = .ok y) : ∃ ys, exceptMapM g l = .ok ys := by
  induction l with
  | nil => exact ⟨[], rfl⟩
  | cons x xs ih =>
    obtain ⟨y, hy⟩ := h x (by simp)
    obtain ⟨ys, hys⟩ := ih (fun z hz => h z (by simp [hz]))
    exact ⟨y :: ys, by simp [exceptMapM, hy, hys]⟩

theorem exceptMapM_error_of_mem {ε α β : Type} {g : α → Except ε β} {l : List α}
    {e₀ : ε}
    (hall : ∀ x ∈ l, (∃ y, g x = .ok y) ∨ g x = .error e₀)
    (hsome : ∃ x ∈ l, g x = .error e₀) :
    exceptMapM g l = .error e₀ := by
  induction l with
  | nil => obtain ⟨x, hx, _⟩ := hsome; cases hx
  | cons x xs ih =>
    rcases hall x (by simp) with ⟨y, hy⟩ | herr
    · simp only [exceptMapM, hy]
      obtain ⟨z, hz, hze⟩ := hsome
      rcases List.mem_cons.mp hz with rfl | hzxs
      · rw [hy] at hze; cases hze
      · rw [ih (fun w hw => hall w (by simp [hw])) ⟨z, hzxs, hze⟩]
    · simp [exceptMapM, herr]

theorem exceptMapM_ne_error {ε α β : Type} {g : α → Except ε β} {l : List α}
    {e₀ : ε} (h : ∀ x ∈ l, g x ≠ .error e₀) :
    exceptMapM g l ≠ .error e₀ := by
  induction l with
  | nil => simp [exceptMapM]
  | cons x xs ih =>
    simp only [exceptMapM]
    cases hx : g x with
    | error e =>
      intro hc
      cases hc
      exact h x (by simp) hx
    | ok y =>
      cases hxs : exceptMapM g xs with
      | error e =>
        intro hc
        cases hc
        exact ih (fun z hz => h z (by simp [hz])) hxs
      | ok ys => simp

theorem exceptMapM_ok_pointwise {ε α β : Type} {g : α → Except ε β} {l : List α}
    {h : α → β} {ys : List β}
    (hpt : ∀ x ∈ l, ∀ y, g x = .ok y → y = h x)
    (hok : exceptMapM g l = .ok ys) : ys = l.map h := by
  induction l generalizing ys with
  | nil => cases hok; rfl
  | cons x xs ih =>
    simp only [exceptMapM] at hok
    cases hx : g x with
    | error e => rw [hx] at hok; cases hok
    | ok y =>
      rw [hx] at hok
      cases hxs : exceptMapM g xs with
      | error e => rw [hxs] at hok; cases hok
      | ok zs =>
        rw [hxs] at hok
        cases hok
        have := ih (fun z hz => hpt z (by simp [hz])) hxs
        simp [this, hpt x (by simp) y hx]

/-! ## helpers.ts -/

/-- createIndexSet (src/helpers.ts): running-total offset ranges of the
sub-list lengths, built with reduce exactly as in the source. -/
def createIndexSet {α} (data : List (List α)) : List (Nat × Nat) :=
  (data.foldl
    (fun acc item =>
      (acc.1 + item.length, acc.2 ++ [(acc.1, acc.1 + item.length)]))
    ((0 : Nat), ([] : List (Nat × Nat)))).2

/-- mergeFromIndexSet (src/helpers.ts): slice the flat list by each
half-open range.  Array.prototype.slice(before, after) for
0 ≤ before ≤ after is take (after - before) of drop before, which covers
every range createIndexSet produces. -/
def mergeFromIndexSet {α} (arr : List α) (indexes : List (Nat × Nat)) :
    List (List α) :=
  indexes.map (fun p => (arr.drop p.1).take (p.2 - p.1))

/-- removeOverSizedChunks (src/helpers.ts): if no ladder entry strictly
exceeds the call count the ladder is returned unchanged; otherwise the
call count is prepended to the entries strictly below it. -/
def removeOverSizedChunks (callsLength : Nat) (chunkSizes : List Int) :
    List Int :=
  let hasOverSizedChunks :=
    chunkSizes.any (fun chunkSize => chunkSize > (callsLength : Int))
  if !hasOverSizedChunks then chunkSizes
  else
    (callsLength : Int) :: chunkSizes.filter
      (fun chunkSize => chunkSize < (callsLength : Int))

/-- Specification-side running-total partition: group i covers the
half-open range starting at the sum of the previous lengths. -/
def indexSetSpec {α} (off : Nat) : List (List α) → List (Nat × Nat)
  | [] => []
  | g :: gs => (off, off + g.length) :: indexSetSpec (off + g.length) gs

/-! ## lodash chunk -/

/-- Structural worker for lodash chunk with positive size: peel off one
chunk of the given size and recurse on the remainder.  The fuel argument
is a structural-recursion bound; each step removes at least one element,
so fuel equal to the list length is never exhausted and the middle case
below is unreachable from lchunk. -/
def chunkFuel {α} (size : Nat) : Nat → List α → List (List α)
  | _, [] => []
  | 0, rest => [rest]
  | fuel + 1, x :: xs =>
      (x :: xs.take (size - 1)) :: chunkFuel size fuel (xs.drop (size - 1))

/-- lodash chunk(array, size): an empty array or a clamped size below one
yields no chunks, otherwise consecutive chunks of the size with a shorter
final chunk. -/
def lchunk {α} (l : List α) (size : Nat) : List (List α) :=
  if size = 0 then [] else chunkFuel size l.length l

theorem chunkFuel_flatten {α} (size : Nat) :
    ∀ (fuel : Nat) (l : List α), l.length ≤ fuel →
      (chunkFuel size fuel l).flatten = l := by
  intro fuel
  induction fuel with
  | zero =>
    intro l hl
    cases l with
    | nil => rfl
    | cons x xs => simp at hl
  | succ n ih =>
    intro l hl
    cases l with
    | nil => rfl
    | cons x xs =>
      have hxs : xs.length ≤ n := by
        simp only [List.length_cons] at hl
        omega
      have hdrop : (xs.drop (size - 1)).length ≤ n := by
        rw [List.length_drop]
        omega
      simp only [chunkFuel, List.flatten_cons, ih _ hdrop]
      rw [List.cons_append, List.take_append_drop]

theorem lchunk_flatten {α} (l : List α) (size : Nat) (hs : 0 < size) :
    (lchunk l size).flatten = l := by
  unfold lchunk
  rw [if_neg (by omega)]
  exact chunkFuel_flatten size l.length l le_rfl

/-! ## The chunked batch aggregator (MultiCall.rawCallInChunks) -/

/-- Errors the modelled code can raise.  fuelOut is an artifact of the
explicit recursion bound and is proved unreachable below; the remaining
constructors stand for the three throw sites of the source. -/
inductive JsError where
  | originMismatch
  | allFailedLastChunk
  | failedRequest
  | fuelOut
deriving DecidableEq

/-- Flat call item [targetAddress, encodedPayload]. -/
abbrev MCItem := String × String
/-- Flat raw result [targetAddress, (success, data)]. -/
abbrev MCRes := String × (Bool × String)

/-- Model of a single unchunked aggregator dispatch (MultiCall.rawCall):
the endpoint either rejects wholesale or returns one result per call in
call order, here a deterministic per-call function f guarded by a
whole-list failure predicate. -/
def rawCallModel {α β : Type} (f : α → β) (fails : List α → Bool)
    (calls : List α) : Except JsError (List β) :=
  if fails calls then .error .failedRequest else .ok (calls.map f)

/-- Size argument of chunk(calls, chunksNoBiggerThanRequests[0]): the
head of the normalized ladder, with the two lodash conversions an absent
first entry defaults to one and a negative entry clamps to zero. -/
def effectiveSize (callsLength : Nat) (chunkSizes : List Int) : Nat :=
  match (removeOverSizedChunks callsLength chunkSizes).head? with
  | none => 1
  | some s => s.toNat

/-- The chunk partition one level of rawCallInChunks dispatches. -/
def effectiveChunks {α} (calls : List α) (chunkSizes : List Int) :
    List (List α) :=
  lchunk calls (effectiveSize calls.length chunkSizes)

/-- MultiCall.rawCallInChunks (src/index.ts lines 122-176) with explicit
recursion fuel.  The per-chunk dispatch is abstracted by the per-call
result function f and the chunk failure predicate fails, exactly the
success/failure outcome record the source builds per chunk.  The three
branches mirror the source: all chunks fulfilled, all failed on a
single-entry normalized ladder, and the mixed case that keeps fulfilled
results and retries each failed chunk on the ladder tail (throwing when
no smaller size remains). -/
def rawCallInChunksF {α β : Type} (f : α → β) (fails : List α → Bool) :
    Nat → List α → List Int → Except JsError (List β)
  | 0, _, _ => .error .fuelOut
  | fuel + 1, calls, chunkSizes =>
    let chunksNoBiggerThanRequests :=
      removeOverSizedChunks calls.length chunkSizes
    let chunks := effectiveChunks calls chunkSizes
    if chunks.all (fun ch => !fails ch) then
      .ok (chunks.flatMap (fun ch => ch.map f))
    else if chunksNoBiggerThanRequests.length = 1
        && chunks.all (fun ch => fails ch) then
      .error .allFailedLastChunk
    else
      (exceptMapM
        (fun ch =>
          if !fails ch then .ok (ch.map f)
          else
            let newChunkSize := chunksNoBiggerThanRequests.drop 1
            if newChunkSize.isEmpty then .error .failedRequest
            else rawCallInChunksF f fails fuel ch newChunkSize)
        chunks).map List.flatten

/-- The handler applied to every chunk outcome in the mixed branch:
fulfilled chunks keep their result, failed chunks are retried on the
ladder tail, or abort when no smaller size remains. -/
def retryChunk {α β : Type} (f : α → β) (fails : List α → Bool) (fuel : Nat)
    (newChunkSize : List Int) (ch : List α) : Except JsError (List β) :=
  if !fails ch then .ok (ch.map f)
  else
    if newChunkSize.isEmpty then .error .failedRequest
    else rawCallInChunksF f fails fuel ch newChunkSize

/-- Unfolding of one recursion level of rawCallInChunks. -/
theorem rawCallInChunksF_succ {α β : Type} (f : α → β) (fails : List α → Bool)
    (fuel : Nat) (calls : List α) (cs : List Int) :
    rawCallInChunksF f fails (fuel + 1) calls cs =
      if (effectiveChunks calls cs).all (fun ch => !fails ch) then
        .ok ((effectiveChunks calls cs).flatMap (fun ch => ch.map f))
      else if (removeOverSizedChunks calls.length cs).length = 1
          && (effectiveChunks calls cs).all (fun ch => fails ch) then
        .error .allFailedLastChunk
      else
        (exceptMapM
          (retryChunk f fails fuel ((removeOverSizedChunks calls.length cs).drop 1))
          (effectiveChunks calls cs)).map List.flatten := rfl

/-- rawCallInChunks at its sufficient fuel (the ladder length; at least
one level is always entered).  The fuel-adequacy theorem below shows this
bound is never exhausted, so this is the source recursion. -/
def rawCallInChunksRun {α β : Type} (f : α → β) (fails : List α → Bool)
    (calls : List α) (chunkSizes : List Int) : Except JsError (List β) :=
  rawCallInChunksF f fails (max chunkSizes.length 1) calls chunkSizes

/-! ## Facts about the normalized ladder -/

theorem removeOverSizedChunks_length_le (n : Nat) (cs : List Int) :
    (removeOverSizedChunks n cs).length ≤ cs.length := by
  by_cases h : cs.any (fun c => c > (n : Int))
  · obtain ⟨c, hc, hcn⟩ := List.any_eq_true.mp h
    have hlt : (cs.filter (fun c => c < (n : Int))).length < cs.length := by
      refine List.length_filter_lt_length_iff_exists.mpr ⟨c, hc, ?_⟩
      simp only [decide_eq_true_eq] at hcn ⊢
      omega
    simp only [removeOverSizedChunks, h, Bool.not_true, Bool.false_eq_true,
      if_false, List.length_cons]
    omega
  · simp only [Bool.not_eq_true] at h
    simp [removeOverSizedChunks, h]

theorem removeOverSizedChunks_tail_mem (n : Nat) (cs : List Int) :
    ∀ c ∈ (removeOverSizedChunks n cs).tail, c ∈ cs := by
  by_cases h : cs.any (fun c => c > (n : Int))
  · simp only [removeOverSizedChunks, h, Bool.not_true, Bool.false_eq_true,
      if_false, List.tail_cons]
    intro c hc
    exact (List.mem_filter.mp hc).1
  · simp only [Bool.not_eq_true] at h
    simp only [removeOverSizedChunks, h, Bool.not_false, if_true]
    intro c hc
    exact List.mem_of_mem_tail hc

theorem removeOverSizedChunks_head_mem (n : Nat) (cs : List Int) (c : Int)
    (hc : (removeOverSizedChunks n cs).head? = some c) :
    c = (n : Int) ∨ c ∈ cs := by
  by_cases h : cs.any (fun x => x > (n : Int))
  · simp only [removeOverSizedChunks, h, Bool.not_true, Bool.false_eq_true,
      if_false, List.head?_cons, Option.some.injEq] at hc
    exact Or.inl hc.symm
  · simp only [Bool.not_eq_true] at h
    simp only [removeOverSizedChunks, h, Bool.not_false, if_true] at hc
    exact Or.inr (List.mem_of_mem_head? hc)

/-- The effective first chunk size is positive whenever the ladder is
positive and there is at least one call (or the ladder is empty, where
lodash defaults the size to one). -/
theorem effectiveSize_pos (calls_len : Nat) (cs : List Int)
    (hpos : ∀ c ∈ cs, 0 < c) (hne : calls_len ≠ 0) :
    0 < effectiveSize calls_len cs := by
  unfold effectiveSize
  cases hh : (removeOverSizedChunks calls_len cs).head? with
  | none => simp
  | some s =>
    show 0 < s.toNat
    rcases removeOverSizedChunks_head_mem calls_len cs s hh with rfl | hmem
    · omega
    · have := hpos s hmem
      omega

/-! ## Chunk invariance -/

theorem lchunk_flatten_cases {α} (calls : List α) (size : Nat)
    (h : calls = [] ∨ 0 < size) : (lchunk calls size).flatten = calls := by
  rcases h with rfl | hpos
  · unfold lchunk
    by_cases hs : size = 0 <;> simp [hs, chunkFuel]
  · exact lchunk_flatten calls size hpos

theorem effectiveChunks_flatten {α} (calls : List α) (cs : List Int)
    (hpos : ∀ c ∈ cs, 0 < c) : (effectiveChunks calls cs).flatten = calls := by
  apply lchunk_flatten_cases
  by_cases hc : calls = []
  · exact Or.inl hc
  · refine Or.inr (effectiveSize_pos calls.length cs hpos ?_)
    intro h0
    exact hc (List.length_eq_zero.mp h0)

/-- Every successful return of rawCallInChunks maps each call to its
per-call dispatch result, in input order. -/
theorem rawCallInChunks_ok_eq_map {α β : Type} (f : α → β)
    (fails : List α → Bool) :
    ∀ (fuel : Nat) (calls : List α) (cs : List Int),
      (∀ c ∈ cs, 0 < c) →
      ∀ res, rawCallInChunksF f fails fuel calls cs = .ok res →
        res = calls.map f := by
  intro fuel
  induction fuel with
  | zero =>
    intro calls cs hpos res h
    cases h
  | succ n ih =>
    intro calls cs hpos res h
    rw [rawCallInChunksF_succ] at h
    have hflat := effectiveChunks_flatten calls cs hpos
    by_cases hall : (effectiveChunks calls cs).all (fun ch => !fails ch)
    · rw [if_pos hall] at h
      injection h with h
      rw [← h, List.flatMap_def, ← List.map_flatten, hflat]
    · rw [if_neg hall] at h
      by_cases hlast : ((removeOverSizedChunks calls.length cs).length = 1
          && (effectiveChunks calls cs).all (fun ch => fails ch) : Bool)
      · rw [if_pos hlast] at h
        cases h
      · rw [if_neg hlast] at h
        cases hmap : exceptMapM
            (retryChunk f fails n ((removeOverSizedChunks calls.length cs).drop 1))
            (effectiveChunks calls cs) with
        | error e =>
          rw [hmap] at h
          simp only [Except.map] at h
          cases h
        | ok ys =>
          rw [hmap] at h
          simp only [Except.map, Except.ok.injEq] at h
          have hys : ys = (effectiveChunks calls cs).map (fun ch => ch.map f) := by
            refine exceptMapM_ok_pointwise ?_ hmap
            intro ch hch y hy
            unfold retryChunk at hy
            by_cases hf : fails ch
            · rw [if_neg (by simp [hf])] at hy
              by_cases hemp :
                  ((removeOverSizedChunks calls.length cs).drop 1).isEmpty
              · rw [if_pos hemp] at hy
                cases hy
              · rw [if_neg hemp] at hy
                refine ih ch ((removeOverSizedChunks calls.length cs).drop 1)
                  ?_ y hy
                intro c hcmem
                rw [List.drop_one] at hcmem
                exact hpos c (removeOverSizedChunks_tail_mem _ _ c hcmem)
            · rw [if_pos (by simp [hf])] at hy
              injection hy with hy
              exact hy.symm
          rw [← h, hys, ← List.map_flatten, hflat]

/-! ## Fuel adequacy: recursion depth is bounded by the ladder length -/

/-- Whenever the mixed branch actually recurses, the ladder tail it
recurses on is strictly shorter than the ladder, and the ladder had at
least two entries. -/
theorem normTail_bounds (n : Nat) (cs : List Int)
    (hne : ¬(((removeOverSizedChunks n cs).drop 1).isEmpty = true)) :
    1 ≤ ((removeOverSizedChunks n cs).drop 1).length ∧
      ((removeOverSizedChunks n cs).drop 1).length + 1 ≤ cs.length := by
  have hlen : ((removeOverSizedChunks n cs).drop 1).length =
      (removeOverSizedChunks n cs).length - 1 := by
    rw [List.length_drop]
  have hpos : 0 < ((removeOverSizedChunks n cs).drop 1).length := by
    simp only [List.isEmpty_iff] at hne
    exact List.length_pos.mpr hne
  have hle := removeOverSizedChunks_length_le n cs
  omega

/-- Any two sufficient fuels give the same result: the computation is
insensitive to extra fuel once fuel covers the ladder length. -/
theorem rawCallInChunksF_fuel_irrel {α β : Type} (f : α → β)
    (fails : List α → Bool) :
    ∀ (fuel₁ fuel₂ : Nat) (calls : List α) (cs : List Int),
      cs.length ≤ fuel₁ → 1 ≤ fuel₁ → cs.length ≤ fuel₂ → 1 ≤ fuel₂ →
      rawCallInChunksF f fails fuel₁ calls cs =
        rawCallInChunksF f fails fuel₂ calls cs := by
  intro fuel₁
  induction fuel₁ with
  | zero =>
    intro fuel₂ calls cs h1 h2 h3 h4
    omega
  | succ n ih =>
    intro fuel₂ calls cs h1 h2 h3 h4
    cases fuel₂ with
    | zero => omega
    | succ m =>
      rw [rawCallInChunksF_succ, rawCallInChunksF_succ]
      by_cases hall : (effectiveChunks calls cs).all (fun ch => !fails ch)
      · rw [if_pos hall, if_pos hall]
      · rw [if_neg hall, if_neg hall]
        by_cases hlast : ((removeOverSizedChunks calls.length cs).length = 1
            && (effectiveChunks calls cs).all (fun ch => fails ch) : Bool)
        · rw [if_pos hlast, if_pos hlast]
        · rw [if_neg hlast, if_neg hlast]
          congr 1
          apply exceptMapM_congr
          intro ch hch
          by_cases hf : fails ch
          · simp only [retryChunk, hf, Bool.not_true, Bool.false_eq_true,
              if_false]
            by_cases hemp :
                (((removeOverSizedChunks calls.length cs).drop 1).isEmpty = true)
            · rw [List.isEmpty_iff, List.drop_one] at hemp
              simp [hemp]
            · rw [if_neg hemp, if_neg hemp]
              obtain ⟨hb1, hb2⟩ := normTail_bounds calls.length cs hemp
              exact ih m ch _ (by omega) (by omega) (by omega) (by omega)
          · simp only [retryChunk, hf, Bool.not_false, if_true]

/-- With fuel covering the ladder length the fuel bound is never hit:
the recursion depth of rawCallInChunks is bounded by the ladder length. -/
theorem rawCallInChunksF_ne_fuelOut {α β : Type} (f : α → β)
    (fails : List α → Bool) :
    ∀ (fuel : Nat) (calls : List α) (cs : List Int),
      cs.length ≤ fuel → 1 ≤ fuel →
      rawCallInChunksF f fails fuel calls cs ≠ .error .fuelOut := by
  intro fuel
  induction fuel with
  | zero =>
    intro calls cs h1 h2
    omega
  | succ n ih =>
    intro calls cs h1 h2
    rw [rawCallInChunksF_succ]
    by_cases hall : (effectiveChunks calls cs).all (fun ch => !fails ch)
    · rw [if_pos hall]
      simp
    · rw [if_neg hall]
      by_cases hlast : ((removeOverSizedChunks calls.length cs).length = 1
          && (effectiveChunks calls cs).all (fun ch => fails ch) : Bool)
      · rw [if_pos hlast]
        simp
      · rw [if_neg hlast]
        have hne' : exceptMapM
            (retryChunk f fails n ((removeOverSizedChunks calls.length cs).drop 1))
            (effectiveChunks calls cs) ≠ .error .fuelOut := by
          apply exceptMapM_ne_error
          intro ch hch
          by_cases hf : fails ch
          · simp only [retryChunk, hf, Bool.not_true, Bool.false_eq_true,
              if_false]
            by_cases hemp :
                (((removeOverSizedChunks calls.length cs).drop 1).isEmpty = true)
            · rw [List.isEmpty_iff, List.drop_one] at hemp
              simp [hemp]
            · rw [if_neg hemp]
              obtain ⟨hb1, hb2⟩ := normTail_bounds calls.length cs hemp
              exact ih ch _ (by omega) (by omega)
          · simp only [retryChunk, hf, Bool.not_false, if_true]
            simp
        cases hmap : exceptMapM
            (retryChunk f fails n ((removeOverSizedChunks calls.length cs).drop 1))
            (effectiveChunks calls cs) with
        | ok ys => simp [Except.map]
        | error e =>
          rw [hmap] at hne'
          simp only [Except.map]
          intro hc
          injection hc with hc
          exact hne' (by rw [hc])

/-! ## Index-set codec -/

theorem createIndexSet_foldl {α} (data : List (List α)) :
    ∀ (n₀ : Nat) (b₀ : List (Nat × Nat)),
      data.foldl
        (fun acc item =>
          (acc.1 + item.length, acc.2 ++ [(acc.1, acc.1 + item.length)]))
        (n₀, b₀)
      = (n₀ + (data.map List.length).sum, b₀ ++ indexSetSpec n₀ data) := by
  induction data with
  | nil =>
    intro n₀ b₀
    simp [indexSetSpec]
  | cons g gs ih =>
    intro n₀ b₀
    simp only [List.foldl_cons, ih, indexSetSpec, List.map_cons, List.sum_cons]
    refine Prod.ext ?_ ?_
    · simp only []
      omega
    · simp

theorem createIndexSet_eq_spec {α} (data : List (List α)) :
    createIndexSet data = indexSetSpec 0 data := by
  unfold createIndexSet
  rw [createIndexSet_foldl]
  simp

theorem mergeFromIndexSet_pre {α} :
    ∀ (groups : List (List α)) (pre : List α),
      mergeFromIndexSet (pre ++ groups.flatten)
        (indexSetSpec pre.length groups) = groups := by
  intro groups
  induction groups with
  | nil => intro pre; rfl
  | cons g gs ih =>
    intro pre
    show ((pre ++ (g :: gs).flatten).drop pre.length).take
          (pre.length + g.length - pre.length)
        :: mergeFromIndexSet (pre ++ (g :: gs).flatten)
          (indexSetSpec (pre.length + g.length) gs) = g :: gs
    have hhd : ((pre ++ (g :: gs).flatten).drop pre.length).take
        (pre.length + g.length - pre.length) = g := by
      rw [List.flatten_cons, List.drop_left, Nat.add_sub_cancel_left]
      exact List.take_left g gs.flatten
    have htl : mergeFromIndexSet (pre ++ (g :: gs).flatten)
        (indexSetSpec (pre.length + g.length) gs) = gs := by
      have harr : pre ++ (g :: gs).flatten = (pre ++ g) ++ gs.flatten := by
        rw [List.flatten_cons, List.append_assoc]
      have hlen : pre.length + g.length = (pre ++ g).length := by
        rw [List.length_append]
      rw [harr, hlen]
      exact ih (pre ++ g)
    rw [hhd, htl]

/-- The round-trip law: rebuilding the flattening along the index set of
the original grouping reproduces the grouping. -/
theorem mergeFromIndexSet_flatten {α} (groups : List (List α)) :
    mergeFromIndexSet groups.flatten (createIndexSet groups) = groups := by
  rw [createIndexSet_eq_spec]
  have := mergeFromIndexSet_pre groups []
  simpa using this

/-! ## index.ts data model -/

/-- The slice of a web3 CallReturn object the source reads: the bound
target address (_parent._address), the encoded payload (encodeABI()),
the declared outputs (_method.outputs as name/type pairs), and the
outcome of a direct invocation (call(), none modelling a rejection,
which the source catches into undefined).  The block-height argument
only parametrizes the external call and is absorbed into callResult. -/
structure CallDesc where
  address : String
  encoded : String
  outputs : List (String × String)
  callResult : Option JsVal

/-- A ShapeWithLabel field value: a web3 call object or a plain string. -/
inductive FieldVal where
  | call (c : CallDesc)
  | lit (s : String)

/-- Whether a field value is a string literal (typeof value == "string"). -/
def FieldVal.isLit : FieldVal → Bool
  | .call _ => false
  | .lit _ => true

/-- MultiCall.stripLabels: omit every string-valued field, keeping call
fields in their original relative order. -/
def stripLabels (groupsOfShapes : List (List (Obj FieldVal))) :
    List (List (Obj CallDesc)) :=
  groupsOfShapes.map (fun group =>
    group.map (fun relay =>
      relay.filterMap (fun p =>
        match p.2 with
        | .call c => some (p.1, c)
        | .lit _ => none)))

/-- AbiEncodedShape: the origin address (undefined, modelled none, for an
empty shape) with each field mapped to its encoded payload. -/
structure AbiEncodedShape where
  originAddress : Option String
  data : Obj String

/-- The every((address, index, arr) => address === arr[0]) check of
encodeAbi; vacuously true on an empty shape. -/
def sameOriginStrict (originAddresses : List String) : Bool :=
  match originAddresses.head? with
  | none => true
  | some a₀ => originAddresses.all (fun a => a = a₀)

/-- The every((address) => address == firstOriginAddress) check of
normalCall, firstOriginAddress being originAddresses[0] (undefined on an
empty shape); vacuously true on an empty shape. -/
def sameOriginLoose (originAddresses : List String) : Bool :=
  originAddresses.all (fun a => some a = originAddresses.head?)

/-- Per-shape body of MultiCall.encodeAbi: check that every call field
of the shape is bound to the first field address, then encode each
field. -/
def encodeShape (shape : Obj CallDesc) : Except JsError AbiEncodedShape :=
  if !sameOriginStrict (shape.map (fun p => p.2.address)) then
    .error .originMismatch
  else
    .ok { originAddress := (shape.map (fun p => p.2.address)).head?,
          data := shape.map (fun p => (p.1, p.2.encoded)) }

/-- MultiCall.encodeAbi over every group and shape; the first
same-origin-address violation aborts the whole invocation. -/
def encodeAbi (groupsOfShapes : List (List (Obj CallDesc))) :
    Except JsError (List (List AbiEncodedShape)) :=
  exceptMapM (fun group => exceptMapM encodeShape group) groupsOfShapes

/-- Per-shape body of MultiCall.normalCall: the same origin-address
check, then one direct call per field with a rejection caught into
undefined, returned as the object with _originAddress and data keys. -/
def normalShape (shape : Obj CallDesc) : Except JsError (Obj JsVal) :=
  if !sameOriginLoose (shape.map (fun p => p.2.address)) then
    .error .originMismatch
  else
    .ok [("_originAddress",
            match (shape.map (fun p => p.2.address)).head? with
            | some a => .str a
            | none => .undef),
         ("data", .obj (shape.map (fun p => (p.1, p.2.callResult.getD .undef))))]

/-- MultiCall.normalCall: traditional mode, one direct call per field,
joined per shape and per group. -/
def normalCall (groupsOfShapes : List (List (Obj CallDesc))) :
    Except JsError (List (List (Obj JsVal))) :=
  exceptMapM (fun group => exceptMapM normalShape group) groupsOfShapes

/-- MultiCall.decodeHex with the external web3 codec abstracted: decP is
decodeParameter, decPs is decodeParameters, none modelling a decode
throw, which the source catches into undefined. -/
def decodeHex (decP : String → String → Option JsVal)
    (decPs : List String → String → Option JsVal)
    (hex : String) (ty : String ⊕ List String) : JsVal :=
  match ty with
  | .inr types => ((decPs types hex).getD JsVal.undef)
  | .inl t => ((decP t hex).getD JsVal.undef)

/-- Per-field result computation in the aggregated path of
MultiCall.all: skipDecode returns the raw payload, a failed call yields
undefined without decoding, and a successful call decodes against the
single declared output type or the list of all of them. -/
def fieldResult (skipDecode : Bool)
    (decP : String → String → Option JsVal)
    (decPs : List String → String → Option JsVal)
    (callReturn : CallDesc) (success : Bool) (data : String) : JsVal :=
  if skipDecode then .str data
  else if success then
    decodeHex decP decPs data
      (if callReturn.outputs.length = 1
       then .inl (callReturn.outputs.headD ("", "")).2
       else .inr (callReturn.outputs.map (fun x => x.2)))
  else (JsVal.undef)

/-- The reduce in MultiCall.all building one withOrigin object per
shape: starting from the empty object, each field pair spreads the
accumulator and sets _originAddress and the field label. -/
def withOriginShape (skipDecode : Bool)
    (decP : String → String → Option JsVal)
    (decPs : List String → String → Option JsVal)
    (keys : List ((String × CallDesc) × MCRes)) : Obj JsVal :=
  keys.foldl
    (fun acc pr =>
      objInsert (objInsert acc "_originAddress" (.str pr.2.1)) pr.1.1
        (fieldResult skipDecode decP decPs pr.1.2 pr.2.2.1 pr.2.2.2))
    []

/-- The literal resolution of recoverLabels: a string field keeps its
value verbatim unless it is the originAddress sentinel, which resolves
to the shape origin address; call fields are not literals. -/
def resolveLiteral (originAddress : JsVal) (p : String × FieldVal) :
    Option (String × JsVal) :=
  match p.2 with
  | .lit s =>
      some (p.1, if s = "originAddress" then originAddress else JsVal.str s)
  | .call _ => none

/-- Per-shape body of MultiCall.recoverLabels: resolve the string fields
of the original shape (the originAddress sentinel becomes the shape
origin address), append or update them on the withData object, drop the
_originAddress key, then move the properties of the data key, when
present, onto the result by spread. -/
def recoverShape (plain : Obj FieldVal) (origin : Obj JsVal) : Obj JsVal :=
  let originAddress := (objGet origin "_originAddress").getD .undef
  let keysToAdd := plain.filterMap (resolveLiteral originAddress)
  let keysAdded := keysToAdd.foldl (fun acc p => objInsert acc p.1 p.2) origin
  let big := objOmit keysAdded "_originAddress"
  let noData := objOmit big "data"
  jsSpreadVal noData ((objGet big "data").getD .undef)

/-- MultiCall.recoverLabels: the per-shape recombination applied across
the zipped nested structure.  The source zips with lodash zip, which
pads mismatched lengths with undefined; the pipeline only ever zips
lists of equal length, where lodash zip and truncating zip agree. -/
def recoverLabels (original : List (List (Obj FieldVal)))
    (withData : List (List (Obj JsVal))) : List (List (Obj JsVal)) :=
  (original.zip withData).map (fun gp =>
    (gp.1.zip gp.2).map (fun sp => recoverShape sp.1 sp.2))

/-- MultiCall.multiCallGroups: flatten the per-shape call lists, run the
chunked dispatch, and slice the flat results back per shape. -/
def multiCallGroups (g : MCItem → Bool × String)
    (fails : List MCItem → Bool) (chunkSizes : List Int)
    (calls : List (List MCItem)) : Except JsError (List (List MCRes)) :=
  if calls.length = 0 then .ok []
  else
    let indexes := createIndexSet calls
    let flatCalls := calls.flatten
    (rawCallInChunksRun (fun c => (c.1, g c)) fails flatCalls chunkSizes).map
      (fun res => mergeFromIndexSet res indexes)

/-- The constructor default chunk-size ladder of the source. -/
def defaultChunkSizes : List Int := [300, 100, 25]

/-- MultiCall.all with the external collaborators abstracted: g gives
the per-call aggregator outcome, fails the whole-chunk failure
predicate, decP and decPs the external decoder.  An invocation with no
shapes returns the input structure unchanged (all groups are then empty
lists).  Traditional mode runs normalCall, otherwise the aggregated
path encodes, flattens, dispatches in chunks, slices back, builds the
withOrigin objects, and recombines the labels. -/
def allModel (g : MCItem → Bool × String) (fails : List MCItem → Bool)
    (chunkSizes : List Int) (skipDecode traditional : Bool)
    (decP : String → String → Option JsVal)
    (decPs : List String → String → Option JsVal)
    (groupsOfShapes : List (List (Obj FieldVal))) :
    Except JsError (List (List (Obj JsVal))) :=
  if groupsOfShapes.flatten.length = 0 then
    .ok (groupsOfShapes.map (fun _ => []))
  else
    let plainShapes := stripLabels groupsOfShapes
    if traditional then
      (normalCall plainShapes).map
        (fun normalEncoded => recoverLabels groupsOfShapes normalEncoded)
    else
      match encodeAbi plainShapes with
      | .error e => .error e
      | .ok abiEncodedGroups =>
        let groupsIndexSet := createIndexSet groupsOfShapes
        let multiCalls := abiEncodedGroups.flatMap (fun encodedGroup =>
          encodedGroup.map (fun encodedShape =>
            encodedShape.data.map (fun p =>
              ((encodedShape.originAddress.getD "", p.2) : MCItem))))
        match multiCallGroups g fails chunkSizes multiCalls with
        | .error e => .error e
        | .ok res =>
          let rebuiltRes := mergeFromIndexSet res groupsIndexSet
          let answer := plainShapes.zip rebuiltRes
          let better := answer.map (fun pr => pr.1.zip pr.2)
          let rawMatch := better.map (fun group =>
            group.map (fun pr => pr.1.zip pr.2))
          let withOrigin := rawMatch.map (fun group =>
            group.map (withOriginShape skipDecode decP decPs))
          .ok (recoverLabels groupsOfShapes withOrigin)

/-- A constructor chunk-size entry as the JS runtime sees it: a number
or some other runtime value (the TypeScript type says number, but the
check is a runtime one). -/
inductive JsEntry where
  | num (n : Int)
  | other (s : String)
deriving DecidableEq

/-- lodash isNumber: a typeof check, true exactly for numbers. -/
def lodash_isNumber : JsEntry → Bool
  | .num _ => true
  | .other _ => false

/-- The MultiCall constructor guard: it throws exactly when the ladder
is not (all numbers and non-empty). -/
def multiCallCtorThrows (chunkSizes : List JsEntry) : Bool :=
  let isNumbersAndAtLeastOne :=
    chunkSizes.all (fun number => lodash_isNumber number)
      && decide (chunkSizes.length > 0)
  !isNumbersAndAtLeastOne

/-! ## Claim theorems -/

/-- C1: chunk invariance and order preservation.  With the per-chunk
dispatch modelled as a deterministic per-call result function, whenever
rawCallInChunks returns without throwing on a positive ladder, its
result list is exactly the per-call dispatch of the input list, element
for element and in input order; in particular it coincides with a
single unchunked dispatch over the whole list whenever that dispatch
succeeds. -/
theorem claim_chunkInvariance {α β : Type} (f : α → β)
    (fails : List α → Bool) (calls : List α) (ladder : List Int)
    (fuel : Nat) (res : List β)
    (hpos : ∀ c ∈ ladder, 0 < c)
    (hok : rawCallInChunksF f fails fuel calls ladder = .ok res) :
    res = calls.map f ∧
      (fails calls = false → rawCallModel f fails calls = .ok res) := by
  have h := rawCallInChunks_ok_eq_map f fails fuel calls ladder hpos res hok
  refine ⟨h, fun hnf => ?_⟩
  rw [rawCallModel, hnf, h]
  simp

/-- Failure pattern used by the witnesses: exactly the three-element
chunks fail, so the first dispatch level partially fails and the retry
level succeeds. -/
def failsW : List Nat → Bool := fun l => decide (l.length = 3)

theorem claim_chunkInvariance_witness :
    ([2, 3, 4, 5] : List Nat) = List.map (fun x => x + 1) [1, 2, 3, 4] ∧
      (failsW [1, 2, 3, 4] = false →
        rawCallModel (fun x => x + 1) failsW [1, 2, 3, 4] = .ok [2, 3, 4, 5]) :=
  claim_chunkInvariance (fun x => x + 1) failsW [1, 2, 3, 4] [3, 1] 2
    [2, 3, 4, 5] (by decide) rfl

/-- C2: terminal exhaustion.  When the normalized ladder has a single
entry and some chunk fails, the whole invocation throws (no partial or
truncated result list is returned, the return type being a single
Except value); when every chunk fails it throws the aggregated
all-requests-failed batch error. -/
theorem claim_terminalExhaustion {α β : Type} (f : α → β)
    (fails : List α → Bool) (calls : List α) (ladder : List Int) (fuel : Nat)
    (hnorm : (removeOverSizedChunks calls.length ladder).length = 1)
    (hsome : ∃ ch ∈ effectiveChunks calls ladder, fails ch = true) :
    ∃ e, rawCallInChunksF f fails (fuel + 1) calls ladder = .error e ∧
      e ≠ .fuelOut ∧
      ((∀ ch ∈ effectiveChunks calls ladder, fails ch = true) →
        e = .allFailedLastChunk) := by
  rw [rawCallInChunksF_succ]
  have hall : ¬((effectiveChunks calls ladder).all (fun ch => !fails ch) = true) := by
    obtain ⟨ch, hch, hf⟩ := hsome
    simp only [List.all_eq_true, not_forall]
    exact ⟨ch, hch, by simp [hf]⟩
  rw [if_neg hall]
  have hemp : (((removeOverSizedChunks calls.length ladder).drop 1).isEmpty = true) := by
    rw [List.isEmpty_iff, ← List.length_eq_zero, List.length_drop, hnorm]
  by_cases hfall : (effectiveChunks calls ladder).all (fun ch => fails ch) = true
  · rw [if_pos (by simp [hnorm, hfall])]
    exact ⟨.allFailedLastChunk, rfl, by decide, fun _ => rfl⟩
  · rw [if_neg (by simp [hfall])]
    have hmap : exceptMapM
        (retryChunk f fails fuel
          ((removeOverSizedChunks calls.length ladder).drop 1))
        (effectiveChunks calls ladder) = .error .failedRequest := by
      apply exceptMapM_error_of_mem
      · intro ch hch
        by_cases hf : fails ch
        · right
          simp only [retryChunk, hf, Bool.not_true, Bool.false_eq_true,
            if_false, hemp, if_true]
        · exact Or.inl ⟨ch.map f, by simp [retryChunk, hf]⟩
      · obtain ⟨ch, hch, hf⟩ := hsome
        refine ⟨ch, hch, ?_⟩
        simp only [retryChunk, hf, Bool.not_true, Bool.false_eq_true,
          if_false, hemp, if_true]
    rw [hmap]
    refine ⟨.failedRequest, by simp [Except.map], by decide, fun hforall => ?_⟩
    exact absurd (List.all_eq_true.mpr hforall) hfall

/-- Failure pattern for the exhaustion witness: every dispatch fails. -/
def failsAllW : List Nat → Bool := fun _ => true

theorem claim_terminalExhaustion_witness :
    ∃ e, rawCallInChunksF (fun x => x + 1) failsAllW (0 + 1) [1, 2] [25]
        = .error e ∧ e ≠ .fuelOut ∧
      ((∀ ch ∈ effectiveChunks [1, 2] [25], failsAllW ch = true) →
        e = .allFailedLastChunk) :=
  claim_terminalExhaustion (fun x => x + 1) failsAllW [1, 2] [25] 0
    (by decide) ⟨[1, 2], by decide, rfl⟩

/-- C3 counterexample: with call count 150 and ladder [600, 150, 100],
the entry 150 is not larger than the count, yet it is not kept: the
result is [150, 100] with a single occurrence of 150 (the leading
replacement entry), not [150, 150, 100] as the claim
(oversized entries replaced by one leading count entry while every
entry not larger than the count is kept) predicts. -/
theorem claim_removeOverSized_counterexample :
    removeOverSizedChunks 150 [600, 150, 100] = [150, 100] ∧
      removeOverSizedChunks 150 [600, 150, 100] ≠ [150, 150, 100] ∧
      (removeOverSizedChunks 150 [600, 150, 100]).count 150 = 1 := by
  refine ⟨by decide, by decide, by decide⟩

/-- C3 amended: the ladder is unchanged when no entry strictly exceeds
the call count (an entry equal to the count is not oversized); when
some entry strictly exceeds it, the result is one leading entry equal
to the count followed by the entries strictly below the count in their
original order (entries equal to the count are dropped in this case,
the leading entry standing in for them). -/
theorem claim_removeOverSized_spec (n : Nat) (L : List Int) :
    ((∀ c ∈ L, c ≤ (n : Int)) → removeOverSizedChunks n L = L) ∧
    ((∃ c ∈ L, (n : Int) < c) →
      removeOverSizedChunks n L
        = (n : Int) :: L.filter (fun c => c < (n : Int))) := by
  constructor
  · intro h
    have hany : L.any (fun c => c > (n : Int)) = false := by
      rw [List.any_eq_false]
      intro c hc
      simp only [gt_iff_lt, decide_eq_true_eq, not_lt]
      exact h c hc
    simp [removeOverSizedChunks, hany]
  · intro ⟨c, hc, hcn⟩
    have hany : L.any (fun c => c > (n : Int)) = true := by
      rw [List.any_eq_true]
      exact ⟨c, hc, by simpa using hcn⟩
    simp [removeOverSizedChunks, hany]

theorem claim_removeOverSized_spec_witness :
    removeOverSizedChunks 150 [600, 400, 300, 100, 50, 25]
        = [150, 100, 50, 25] ∧
      removeOverSizedChunks 150 [100, 80, 50] = [100, 80, 50] ∧
      removeOverSizedChunks 150 [150, 100, 80, 50] = [150, 100, 80, 50] :=
  ⟨((claim_removeOverSized_spec 150 [600, 400, 300, 100, 50, 25]).2
      ⟨600, by decide, by decide⟩).trans (by decide),
   (claim_removeOverSized_spec 150 [100, 80, 50]).1 (by decide),
   (claim_removeOverSized_spec 150 [150, 100, 80, 50]).1 (by decide)⟩

/-- C4: createIndexSet is the running-total partition of half-open
ranges of the flattened length (an empty sub-list yields an empty range
at the current offset), and rebuilding the order-preserving flattening
along it reproduces the original grouping exactly. -/
theorem claim_indexSet_roundTrip {α} (groups : List (List α)) :
    createIndexSet groups = indexSetSpec 0 groups ∧
      mergeFromIndexSet groups.flatten (createIndexSet groups) = groups :=
  ⟨createIndexSet_eq_spec groups, mergeFromIndexSet_flatten groups⟩

/-- C8 counterexample: the ladder [0] has a non-positive entry, yet the
constructor guard does not throw: positivity is not validated. -/
theorem claim_ctor_counterexample :
    multiCallCtorThrows [JsEntry.num 0] = false ∧ ¬((0 : Int) > 0) :=
  ⟨rfl, by decide⟩

/-- C8 amended: the constructor raises exactly when the ladder is empty
or contains a non-numeric entry; non-positive numeric entries are
accepted. -/
theorem claim_ctor_spec (chunkSizes : List JsEntry) :
    multiCallCtorThrows chunkSizes = true ↔
      (chunkSizes = [] ∨ ∃ e ∈ chunkSizes, lodash_isNumber e = false) := by
  unfold multiCallCtorThrows
  constructor
  · intro h
    simp only [Bool.not_eq_true', Bool.and_eq_false_iff] at h
    rcases h with h1 | h2
    · right
      obtain ⟨e, he, hne⟩ := List.all_eq_false.mp h1
      exact ⟨e, he, by simpa using hne⟩
    · left
      simp only [decide_eq_false_iff_not, not_lt, Nat.le_zero] at h2
      exact List.length_eq_zero.mp h2
  · intro h
    simp only [Bool.not_eq_true', Bool.and_eq_false_iff]
    rcases h with rfl | ⟨e, he, hne⟩
    · right
      simp
    · left
      rw [List.all_eq_false]
      exact ⟨e, he, by simp [hne]⟩

theorem claim_ctor_spec_witness :
    multiCallCtorThrows [] = true ∧
      multiCallCtorThrows [JsEntry.other "25"] = true :=
  ⟨(claim_ctor_spec []).mpr (Or.inl rfl),
   (claim_ctor_spec [JsEntry.other "25"]).mpr
     (Or.inr ⟨JsEntry.other "25", by decide, rfl⟩)⟩

/-- C9: termination and bounded recursion depth.  Each recursion level
passes the tail of the normalized ladder (visible in the definition of
rawCallInChunksF), whose length is strictly below the ladder length, so
fuel equal to the ladder length is sufficient: any fuel at least the
ladder length computes the same result, and that result is never the
fuel-exhaustion marker — recursion depth never exceeds the ladder
length and there is no infinite retry loop, the empty-remaining-ladder
case throwing instead of retrying. -/
theorem claim_boundedDepth {α β : Type} (f : α → β) (fails : List α → Bool)
    (calls : List α) (ladder : List Int) (fuel : Nat)
    (hne : ladder ≠ []) (hfuel : ladder.length ≤ fuel) :
    rawCallInChunksF f fails fuel calls ladder =
        rawCallInChunksF f fails ladder.length calls ladder ∧
      rawCallInChunksF f fails fuel calls ladder ≠ .error .fuelOut := by
  have h1 : 1 ≤ ladder.length := by
    cases ladder with
    | nil => exact absurd rfl hne
    | cons a l => simp
  exact ⟨rawCallInChunksF_fuel_irrel f fails fuel ladder.length calls ladder
      hfuel (by omega) le_rfl h1,
    rawCallInChunksF_ne_fuelOut f fails fuel calls ladder hfuel (by omega)⟩

theorem claim_boundedDepth_witness :
    rawCallInChunksF (fun x => x + 1) failsW 5 [1, 2, 3, 4] [3, 1] =
        rawCallInChunksF (fun x => x + 1) failsW ([3, 1] : List Int).length
          [1, 2, 3, 4] [3, 1] ∧
      rawCallInChunksF (fun x => x + 1) failsW 5 [1, 2, 3, 4] [3, 1]
        ≠ .error .fuelOut :=
  claim_boundedDepth (fun x => x + 1) failsW [1, 2, 3, 4] [3, 1] 5
    (by decide) (by decide)

/-! ## Same-origin-address invariant -/

theorem exceptMapM_dichotomy {ε α β : Type} {g : α → Except ε β} {l : List α}
    {e₀ : ε}
    (h : ∀ x ∈ l, (∃ y, g x = .ok y) ∨ g x = .error e₀) :
    (∃ ys, exceptMapM g l = .ok ys) ∨ exceptMapM g l = .error e₀ := by
  induction l with
  | nil => exact Or.inl ⟨[], rfl⟩
  | cons x xs ih =>
    rcases h x (by simp) with ⟨y, hy⟩ | he
    · rcases ih (fun z hz => h z (by simp [hz])) with ⟨ys, hys⟩ | he'
      · exact Or.inl ⟨y :: ys, by simp [exceptMapM, hy, hys]⟩
      · exact Or.inr (by simp [exceptMapM, hy, he'])
    · exact Or.inr (by simp [exceptMapM, he])

theorem sameOriginStrict_false {l : List String} {a b : String}
    (ha : a ∈ l) (hb : b ∈ l) (hab : a ≠ b) : sameOriginStrict l = false := by
  cases hl : l.head? with
  | none =>
    rw [List.head?_eq_none_iff] at hl
    rw [hl] at ha
    cases ha
  | some h₀ =>
    unfold sameOriginStrict
    rw [hl, List.all_eq_false]
    by_cases hah : a = h₀
    · refine ⟨b, hb, ?_⟩
      simp only [decide_eq_true_eq]
      intro hbh
      exact hab (hah.trans hbh.symm)
    · refine ⟨a, ha, ?_⟩
      simp only [decide_eq_true_eq]
      exact hah

theorem sameOriginStrict_true {l : List String}
    (h : ∀ x ∈ l, ∀ y ∈ l, x = y) : sameOriginStrict l = true := by
  unfold sameOriginStrict
  cases hl : l.head? with
  | none => rfl
  | some h₀ =>
    rw [List.all_eq_true]
    intro a ha
    simp only [decide_eq_true_eq]
    exact h a ha h₀ (List.mem_of_mem_head? (by simp [hl]))

theorem sameOriginLoose_false {l : List String} {a b : String}
    (ha : a ∈ l) (hb : b ∈ l) (hab : a ≠ b) : sameOriginLoose l = false := by
  cases hl : l.head? with
  | none =>
    rw [List.head?_eq_none_iff] at hl
    rw [hl] at ha
    cases ha
  | some h₀ =>
    unfold sameOriginLoose
    rw [hl, List.all_eq_false]
    by_cases hah : a = h₀
    · refine ⟨b, hb, ?_⟩
      simp only [Option.some_inj, decide_eq_true_eq]
      intro hbh
      exact hab (hah.trans hbh.symm)
    · refine ⟨a, ha, ?_⟩
      simp only [Option.some_inj, decide_eq_true_eq]
      exact hah

theorem sameOriginLoose_true {l : List String}
    (h : ∀ x ∈ l, ∀ y ∈ l, x = y) : sameOriginLoose l = true := by
  unfold sameOriginLoose
  rw [List.all_eq_true]
  intro a ha
  cases hl : l.head? with
  | none =>
    rw [List.head?_eq_none_iff] at hl
    rw [hl] at ha
    cases ha
  | some h₀ =>
    simp only [Option.some_inj, decide_eq_true_eq]
    exact h a ha h₀ (List.mem_of_mem_head? (by simp [hl]))

theorem encodeShape_cases (shape : Obj CallDesc) :
    (∃ r, encodeShape shape = .ok r) ∨
      encodeShape shape = .error .originMismatch := by
  unfold encodeShape
  cases h : sameOriginStrict (shape.map (fun p => p.2.address)) with
  | false => exact Or.inr (by simp)
  | true => exact Or.inl ⟨_, by rw [if_neg (by simp)]⟩

theorem normalShape_cases (shape : Obj CallDesc) :
    (∃ r, normalShape shape = .ok r) ∨
      normalShape shape = .error .originMismatch := by
  unfold normalShape
  cases h : sameOriginLoose (shape.map (fun p => p.2.address)) with
  | false => exact Or.inr (by simp)
  | true => exact Or.inl ⟨_, by rw [if_neg (by simp)]⟩

theorem encodeShape_mismatch {shape : Obj CallDesc} {p q : String × CallDesc}
    (hp : p ∈ shape) (hq : q ∈ shape) (hne : p.2.address ≠ q.2.address) :
    encodeShape shape = .error .originMismatch := by
  unfold encodeShape
  have hf : sameOriginStrict (shape.map (fun r => r.2.address)) = false :=
    sameOriginStrict_false (List.mem_map_of_mem _ hp)
      (List.mem_map_of_mem _ hq) hne
  rw [if_pos (by rw [hf]; rfl)]

theorem normalShape_mismatch {shape : Obj CallDesc} {p q : String × CallDesc}
    (hp : p ∈ shape) (hq : q ∈ shape) (hne : p.2.address ≠ q.2.address) :
    normalShape shape = .error .originMismatch := by
  unfold normalShape
  have hf : sameOriginLoose (shape.map (fun r => r.2.address)) = false :=
    sameOriginLoose_false (List.mem_map_of_mem _ hp)
      (List.mem_map_of_mem _ hq) hne
  rw [if_pos (by rw [hf]; rfl)]

theorem encodeShape_ok {shape : Obj CallDesc}
    (h : ∀ p ∈ shape, ∀ q ∈ shape,
      (p : String × CallDesc).2.address = q.2.address) :
    ∃ r, encodeShape shape = .ok r := by
  unfold encodeShape
  have ht : sameOriginStrict (shape.map (fun r => r.2.address)) = true := by
    apply sameOriginStrict_true
    intro x hx y hy
    obtain ⟨p, hp, rfl⟩ := List.mem_map.mp hx
    obtain ⟨q, hq, rfl⟩ := List.mem_map.mp hy
    exact h p hp q hq
  exact ⟨_, by rw [if_neg (by rw [ht]; simp)]⟩

theorem normalShape_ok {shape : Obj CallDesc}
    (h : ∀ p ∈ shape, ∀ q ∈ shape,
      (p : String × CallDesc).2.address = q.2.address) :
    ∃ r, normalShape shape = .ok r := by
  unfold normalShape
  have ht : sameOriginLoose (shape.map (fun r => r.2.address)) = true := by
    apply sameOriginLoose_true
    intro x hx y hy
    obtain ⟨p, hp, rfl⟩ := List.mem_map.mp hx
    obtain ⟨q, hq, rfl⟩ := List.mem_map.mp hy
    exact h p hp q hq
  exact ⟨_, by rw [if_neg (by rw [ht]; simp)]⟩

/-! ## Object model lemmas -/

theorem objGet_cons {v : Type} (a : String × v) (o : Obj v) (k : String) :
    objGet (a :: o) k = if a.1 = k then some a.2 else objGet o k := by
  by_cases h : a.1 = k
  · rw [if_pos h]
    show (((a :: o).find? (fun p => p.1 = k)).map (fun p => p.2)) = some a.2
    rw [List.find?_cons_of_pos _ (by simpa using h)]
    rfl
  · rw [if_neg h]
    show (((a :: o).find? (fun p => p.1 = k)).map (fun p => p.2)) = objGet o k
    rw [List.find?_cons_of_neg _ (by simpa using h)]
    rfl

theorem any_key_eq_false_iff {v : Type} (o : Obj v) (k : String) :
    (o.any (fun p => p.1 = k) = false) ↔ k ∉ o.map Prod.fst := by
  rw [List.any_eq_false]
  constructor
  · intro h hk
    obtain ⟨p, hp, hpk⟩ := List.mem_map.mp hk
    exact absurd hpk (by simpa using h p hp)
  · intro h p hp
    simp only [decide_eq_true_eq]
    intro hpk
    exact h (hpk ▸ List.mem_map_of_mem Prod.fst hp)

theorem objGet_eq_none {v : Type} {o : Obj v} {k : String}
    (h : k ∉ o.map Prod.fst) : objGet o k = none := by
  induction o with
  | nil => rfl
  | cons a o ih =>
    simp only [List.map_cons, List.mem_cons, not_or] at h
    rw [objGet_cons, if_neg (fun hh => h.1 hh.symm)]
    exact ih h.2

theorem objInsert_not_mem {v : Type} {o : Obj v} {k : String} (x : v)
    (h : k ∉ o.map Prod.fst) : objInsert o k x = o ++ [(k, x)] := by
  unfold objInsert
  rw [if_neg (by rw [(any_key_eq_false_iff o k).mpr h]; simp)]

theorem objGet_map_update {v : Type} (k : String) (x : v) :
    ∀ (o : Obj v), o.any (fun p => p.1 = k) = true →
      objGet (o.map (fun p => if p.1 = k then (k, x) else p)) k = some x := by
  intro o
  induction o with
  | nil => intro h; cases h
  | cons a o ih =>
    intro h
    by_cases hak : a.1 = k
    · rw [List.map_cons, if_pos hak, objGet_cons, if_pos rfl]
    · rw [List.map_cons, if_neg hak, objGet_cons, if_neg hak]
      apply ih
      simpa [List.any_cons, hak] using h

theorem objGet_map_update_ne {v : Type} (k k' : String) (x : v) (h : k' ≠ k) :
    ∀ (o : Obj v),
      objGet (o.map (fun p => if p.1 = k' then (k', x) else p)) k
        = objGet o k := by
  intro o
  induction o with
  | nil => rfl
  | cons a o ih =>
    by_cases hak : a.1 = k'
    · rw [List.map_cons, if_pos hak, objGet_cons, objGet_cons]
      rw [if_neg (show ¬((k' : String) = k) from h)]
      rw [if_neg (fun hh => h (hak.symm.trans hh))]
      exact ih
    · rw [List.map_cons, if_neg hak, objGet_cons, objGet_cons]
      by_cases hk : a.1 = k
      · rw [if_pos hk, if_pos hk]
      · rw [if_neg hk, if_neg hk]
        exact ih

theorem objGet_append_single_self {v : Type} (k : String) (x : v) :
    ∀ (o : Obj v), objGet (o ++ [(k, x)]) k = some x ∨
      (∃ y, objGet o k = some y ∧ objGet (o ++ [(k, x)]) k = some y) := by
  intro o
  induction o with
  | nil =>
    left
    rw [List.nil_append, objGet_cons, if_pos rfl]
  | cons a o ih =>
    by_cases hk : a.1 = k
    · right
      refine ⟨a.2, ?_, ?_⟩
      · rw [objGet_cons, if_pos hk]
      · rw [List.cons_append, objGet_cons, if_pos hk]
    · rcases ih with h1 | ⟨y, hy1, hy2⟩
      · left
        rw [List.cons_append, objGet_cons, if_neg hk]
        exact h1
      · right
        refine ⟨y, ?_, ?_⟩
        · rw [objGet_cons, if_neg hk]
          exact hy1
        · rw [List.cons_append, objGet_cons, if_neg hk]
          exact hy2

theorem objGet_append_single_of_not_mem {v : Type} (k : String) (x : v) :
    ∀ (o : Obj v), k ∉ o.map Prod.fst → objGet (o ++ [(k, x)]) k = some x := by
  intro o
  induction o with
  | nil =>
    intro _
    rw [List.nil_append, objGet_cons, if_pos rfl]
  | cons a o ih =>
    intro h
    simp only [List.map_cons, List.mem_cons, not_or] at h
    rw [List.cons_append, objGet_cons, if_neg (fun hh => h.1 hh.symm)]
    exact ih h.2

theorem objGet_append_single_ne {v : Type} (k k' : String) (x : v)
    (h : k' ≠ k) :
    ∀ (o : Obj v), objGet (o ++ [(k', x)]) k = objGet o k := by
  intro o
  induction o with
  | nil =>
    rw [List.nil_append, objGet_cons, if_neg (show ¬((k' : String) = k) from h)]
  | cons a o ih =>
    rw [List.cons_append, objGet_cons, objGet_cons]
    by_cases hk : a.1 = k
    · rw [if_pos hk, if_pos hk]
    · rw [if_neg hk, if_neg hk]
      exact ih

theorem objGet_objInsert_self {v : Type} (o : Obj v) (k : String) (x : v) :
    objGet (objInsert o k x) k = some x := by
  unfold objInsert
  by_cases hany : o.any (fun p => p.1 = k) = true
  · rw [if_pos hany]
    exact objGet_map_update k x o hany
  · rw [if_neg hany]
    have hfalse : o.any (fun p => p.1 = k) = false := by
      cases hb : o.any (fun p => p.1 = k) with
      | false => rfl
      | true => exact absurd hb hany
    exact objGet_append_single_of_not_mem k x o
      ((any_key_eq_false_iff o k).mp hfalse)

theorem objGet_objInsert_ne {v : Type} (o : Obj v) {k k' : String} (x : v)
    (h : k' ≠ k) : objGet (objInsert o k' x) k = objGet o k := by
  unfold objInsert
  by_cases hany : o.any (fun p => p.1 = k') = true
  · rw [if_pos hany]
    exact objGet_map_update_ne k k' x h o
  · rw [if_neg hany]
    exact objGet_append_single_ne k k' x h o

theorem foldl_objInsert_append {v : Type} :
    ∀ (adds : List (String × v)) (acc : Obj v),
      (adds.map Prod.fst).Nodup →
      (∀ p ∈ adds, (p : String × v).1 ∉ acc.map Prod.fst) →
      adds.foldl (fun a p => objInsert a p.1 p.2) acc = acc ++ adds := by
  intro adds
  induction adds with
  | nil =>
    intro acc _ _
    simp
  | cons q rest ih =>
    intro acc hnd hmem
    rw [List.foldl_cons, objInsert_not_mem q.2 (hmem q (by simp))]
    have hnd' : (rest.map Prod.fst).Nodup := by
      simp only [List.map_cons, List.nodup_cons] at hnd
      exact hnd.2
    have hq1 : q.1 ∉ rest.map Prod.fst := by
      simp only [List.map_cons, List.nodup_cons] at hnd
      exact hnd.1
    have hmem' : ∀ p ∈ rest, (p : String × v).1 ∉ (acc ++ [(q.1, q.2)]).map Prod.fst := by
      intro p hp
      rw [List.map_append, List.mem_append]
      rintro (hin | hin)
      · exact hmem p (by simp [hp]) hin
      · simp only [List.map_cons, List.map_nil, List.mem_singleton] at hin
        exact hq1 (hin ▸ List.mem_map_of_mem Prod.fst hp)
    rw [ih (acc ++ [(q.1, q.2)]) hnd' hmem', List.append_assoc]
    rfl

/-! ## recoverLabels recombination -/

theorem objOmit_append {v : Type} (a b : Obj v) (k : String) :
    objOmit (a ++ b) k = objOmit a k ++ objOmit b k := by
  simp [objOmit]

theorem objOmit_of_no_key {v : Type} {o : Obj v} {k : String}
    (h : ∀ p ∈ o, (p : String × v).1 ≠ k) : objOmit o k = o := by
  unfold objOmit
  apply List.filter_eq_self.mpr
  intro p hp
  simpa using h p hp

theorem objOmit_cons_self {v : Type} (x : v) (o : Obj v) (k : String) :
    objOmit ((k, x) :: o) k = objOmit o k := by
  simp [objOmit]

theorem resolveLiteral_fst (addr : JsVal) :
    ∀ (plain : Obj FieldVal),
      (plain.filterMap (resolveLiteral addr)).map Prod.fst
        = (plain.filter (fun p => p.2.isLit)).map Prod.fst := by
  intro plain
  induction plain with
  | nil => rfl
  | cons p rest ih =>
    rcases p with ⟨k, fv⟩
    cases fv with
    | call c =>
      simpa [List.filterMap_cons, resolveLiteral, FieldVal.isLit] using ih
    | lit s =>
      simp [List.filterMap_cons, resolveLiteral, FieldVal.isLit, ih]

theorem mem_resolveLiteral {addr : JsVal} {plain : Obj FieldVal}
    {q : String × JsVal}
    (hq : q ∈ plain.filterMap (resolveLiteral addr)) :
    ∃ p ∈ plain, (p : String × FieldVal).2.isLit = true ∧
      (q : String × JsVal).1 = p.1 := by
  obtain ⟨p, hp, hres⟩ := List.mem_filterMap.mp hq
  rcases p with ⟨k, fv⟩
  cases fv with
  | call c => simp [resolveLiteral] at hres
  | lit s =>
    refine ⟨(k, .lit s), hp, rfl, ?_⟩
    simp only [resolveLiteral] at hres
    cases hres
    rfl

/-- C5 (amended): label recombination.  For a withData object of the
aggregated form (the _originAddress key first, followed by the decoded
call fields), recoverShape keeps every call-field entry with its
decoded value unchanged, resolves a literal equal to the originAddress
sentinel to the shape origin address, passes any other literal through
verbatim — but the output field order is the call fields first (in
withData order) followed by the literal fields (in original order),
not the original shape field order. -/
theorem claim_labelRecombination (plain : Obj FieldVal) (addr : JsVal)
    (rest : Obj JsVal)
    (hnd : (plain.map Prod.fst).Nodup)
    (hoa : "_originAddress" ∉ rest.map Prod.fst)
    (hdata : "data" ∉ rest.map Prod.fst)
    (hlit : ∀ p ∈ plain, (p : String × FieldVal).2.isLit = true →
      p.1 ∉ rest.map Prod.fst ∧ p.1 ≠ "_originAddress" ∧ p.1 ≠ "data") :
    recoverShape plain (("_originAddress", addr) :: rest)
      = rest ++ plain.filterMap (resolveLiteral addr) := by
  have hA : (objGet (("_originAddress", addr) :: rest) "_originAddress").getD
      .undef = addr := by
    rw [objGet_cons, if_pos rfl]
    rfl
  have hndadds : ((plain.filterMap (resolveLiteral addr)).map Prod.fst).Nodup := by
    rw [resolveLiteral_fst]
    exact ((List.filter_sublist plain).map Prod.fst).nodup hnd
  have hmemadds : ∀ q ∈ plain.filterMap (resolveLiteral addr),
      (q : String × JsVal).1 ∉
        ((("_originAddress", addr) :: rest) : Obj JsVal).map Prod.fst := by
    intro q hq
    obtain ⟨p, hp, hplit, hq1⟩ := mem_resolveLiteral hq
    obtain ⟨hmem, hoa', _⟩ := hlit p hp hplit
    rw [hq1, List.map_cons, List.mem_cons]
    rintro (hh | hh)
    · exact hoa' hh
    · exact hmem hh
  have hK := foldl_objInsert_append (plain.filterMap (resolveLiteral addr))
    (("_originAddress", addr) :: rest) hndadds hmemadds
  have hrest_oa : ∀ p ∈ rest, (p : String × JsVal).1 ≠ "_originAddress" :=
    fun p hp hh => hoa (hh ▸ List.mem_map_of_mem Prod.fst hp)
  have hrest_data : ∀ p ∈ rest, (p : String × JsVal).1 ≠ "data" :=
    fun p hp hh => hdata (hh ▸ List.mem_map_of_mem Prod.fst hp)
  have hadds_oa : ∀ q ∈ plain.filterMap (resolveLiteral addr),
      (q : String × JsVal).1 ≠ "_originAddress" := by
    intro q hq
    obtain ⟨p, hp, hplit, hq1⟩ := mem_resolveLiteral hq
    rw [hq1]
    exact (hlit p hp hplit).2.1
  have hadds_data : ∀ q ∈ plain.filterMap (resolveLiteral addr),
      (q : String × JsVal).1 ≠ "data" := by
    intro q hq
    obtain ⟨p, hp, hplit, hq1⟩ := mem_resolveLiteral hq
    rw [hq1]
    exact (hlit p hp hplit).2.2
  have hbig : objOmit
      ((("_originAddress", addr) :: rest) ++
        plain.filterMap (resolveLiteral addr)) "_originAddress"
      = rest ++ plain.filterMap (resolveLiteral addr) := by
    rw [List.cons_append, objOmit_cons_self, objOmit_append,
      objOmit_of_no_key hrest_oa, objOmit_of_no_key hadds_oa]
  have hnokey : "data" ∉
      ((rest ++ plain.filterMap (resolveLiteral addr)).map Prod.fst) := by
    rw [List.map_append, List.mem_append]
    rintro (hh | hh)
    · exact hdata hh
    · obtain ⟨q, hq, hq1⟩ := List.mem_map.mp hh
      exact hadds_data q hq hq1
  have hnodata : objOmit
      (rest ++ plain.filterMap (resolveLiteral addr)) "data"
      = rest ++ plain.filterMap (resolveLiteral addr) := by
    rw [objOmit_append, objOmit_of_no_key hrest_data,
      objOmit_of_no_key hadds_data]
  have hget : objGet (rest ++ plain.filterMap (resolveLiteral addr)) "data"
      = none := objGet_eq_none hnokey
  simp only [recoverShape, hA, hK, hbig, hnodata, hget]
  rfl

/-- Concrete call descriptor used by counterexamples and witnesses. -/
def cdA : CallDesc :=
  { address := "A", encoded := "0xE",
    outputs := [("r", "uint256")], callResult := none }

/-- C5 counterexample: for the shape x7b meta: "bar", sym: call x7d (a
literal field before a call field) with aggregated withData
x7b _originAddress: "A", sym: "V" x7d, the recombined output is
x7b sym: "V", meta: "bar" x7d — the values are right, but the output
field order (call fields first, then literals) differs from the
original shape field order (meta before sym), refuting the order part
of the claim. -/
theorem claim_labelRecombination_counterexample :
    recoverLabels
        [[[("meta", FieldVal.lit "bar"), ("sym", FieldVal.call cdA)]]]
        [[[("_originAddress", JsVal.str "A"), ("sym", JsVal.str "V")]]]
      = [[[("sym", JsVal.str "V"), ("meta", JsVal.str "bar")]]] ∧
    (([("sym", JsVal.str "V"), ("meta", JsVal.str "bar")] : Obj JsVal).map
        Prod.fst
      ≠ ([("meta", FieldVal.lit "bar"), ("sym", FieldVal.call cdA)] :
          Obj FieldVal).map Prod.fst) :=
  ⟨rfl, by decide⟩

theorem claim_labelRecombination_witness :
    recoverShape
        [("meta", FieldVal.lit "bar"), ("tok", FieldVal.lit "originAddress"),
          ("sym", FieldVal.call cdA)]
        (("_originAddress", JsVal.str "A") :: [("sym", JsVal.str "V")])
      = [("sym", JsVal.str "V")] ++
        ([("meta", FieldVal.lit "bar"), ("tok", FieldVal.lit "originAddress"),
          ("sym", FieldVal.call cdA)] : Obj FieldVal).filterMap
          (resolveLiteral (JsVal.str "A")) :=
  claim_labelRecombination
    [("meta", FieldVal.lit "bar"), ("tok", FieldVal.lit "originAddress"),
      ("sym", FieldVal.call cdA)]
    (JsVal.str "A") [("sym", JsVal.str "V")]
    (by decide) (by decide) (by decide)
    (by
      intro p hp hl
      simp only [List.mem_cons, List.not_mem_nil, or_false] at hp
      rcases hp with rfl | rfl | rfl
      · exact ⟨by decide, by decide, by decide⟩
      · exact ⟨by decide, by decide, by decide⟩
      · cases hl)

/-- C6: origin-address invariant.  A shape holding two call fields
bound to different target addresses makes both the aggregated path
(encodeAbi) and the traditional path (normalCall) fail the whole
invocation with the same-origin-address error and no partial results
(the Except value carries no result list); when every shape binds all
its call fields to one address, neither path raises this error. -/
theorem claim_sameOriginInvariant (groups : List (List (Obj CallDesc))) :
    ((∃ gp ∈ groups, ∃ sh ∈ gp, ∃ p ∈ sh, ∃ q ∈ sh,
        (p : String × CallDesc).2.address ≠ (q : String × CallDesc).2.address) →
      encodeAbi groups = .error .originMismatch ∧
        normalCall groups = .error .originMismatch) ∧
    ((∀ gp ∈ groups, ∀ sh ∈ gp, ∀ p ∈ sh, ∀ q ∈ sh,
        (p : String × CallDesc).2.address = (q : String × CallDesc).2.address) →
      (∃ r, encodeAbi groups = .ok r) ∧ (∃ r, normalCall groups = .ok r)) := by
  constructor
  · rintro ⟨gp, hgp, sh, hsh, p, hp, q, hq, hne⟩
    constructor
    · apply exceptMapM_error_of_mem
      · intro g hg
        exact exceptMapM_dichotomy (fun s _ => encodeShape_cases s)
      · exact ⟨gp, hgp,
          exceptMapM_error_of_mem (fun s _ => encodeShape_cases s)
            ⟨sh, hsh, encodeShape_mismatch hp hq hne⟩⟩
    · apply exceptMapM_error_of_mem
      · intro g hg
        exact exceptMapM_dichotomy (fun s _ => normalShape_cases s)
      · exact ⟨gp, hgp,
          exceptMapM_error_of_mem (fun s _ => normalShape_cases s)
            ⟨sh, hsh, normalShape_mismatch hp hq hne⟩⟩
  · intro hall
    constructor
    · apply exceptMapM_ok_of_all_ok
      intro g hg
      apply exceptMapM_ok_of_all_ok
      intro s hs
      exact encodeShape_ok (hall g hg s hs)
    · apply exceptMapM_ok_of_all_ok
      intro g hg
      apply exceptMapM_ok_of_all_ok
      intro s hs
      exact normalShape_ok (hall g hg s hs)

/-- A second call descriptor bound to a different address. -/
def cdB : CallDesc :=
  { address := "B", encoded := "0xF",
    outputs := [("r", "uint256")], callResult := none }

theorem claim_sameOriginInvariant_witness :
    (encodeAbi [[[("a", cdA), ("b", cdB)]]] = .error .originMismatch ∧
      normalCall [[[("a", cdA), ("b", cdB)]]] = .error .originMismatch) ∧
    ((∃ r, encodeAbi [[[("a", cdA), ("c", cdA)]]] = .ok r) ∧
      (∃ r, normalCall [[[("a", cdA), ("c", cdA)]]] = .ok r)) :=
  ⟨(claim_sameOriginInvariant [[[("a", cdA), ("b", cdB)]]]).1
      ⟨[[("a", cdA), ("b", cdB)]], by simp,
        [("a", cdA), ("b", cdB)], by simp,
        ("a", cdA), by simp,
        ("b", cdB), by simp,
        by simp [cdA, cdB]⟩,
   (claim_sameOriginInvariant [[[("a", cdA), ("c", cdA)]]]).2
      (by
        intro gp hgp sh hsh p hp q hq
        simp only [List.mem_singleton] at hgp
        subst hgp
        simp only [List.mem_singleton] at hsh
        subst hsh
        simp only [List.mem_cons, List.not_mem_nil, or_false] at hp hq
        have hpa : p.2.address = "A" := by
          rcases hp with rfl | rfl <;> rfl
        have hqa : q.2.address = "A" := by
          rcases hq with rfl | rfl <;> rfl
        rw [hpa, hqa])⟩

/-! ## Decode semantics -/

theorem withOriginShape_foldl_preserve (sd : Bool)
    (decP : String → String → Option JsVal)
    (decPs : List String → String → Option JsVal) :
    ∀ (keys : List ((String × CallDesc) × MCRes)) (acc : Obj JsVal)
      (k : String), k ≠ "_originAddress" →
      (∀ pr ∈ keys, (pr : (String × CallDesc) × MCRes).1.1 ≠ k) →
      objGet (keys.foldl
        (fun acc pr =>
          objInsert (objInsert acc "_originAddress" (.str pr.2.1)) pr.1.1
            (fieldResult sd decP decPs pr.1.2 pr.2.2.1 pr.2.2.2)) acc) k
        = objGet acc k := by
  intro keys
  induction keys with
  | nil => intro acc k _ _; rfl
  | cons q rest ih =>
    intro acc k hk hlab
    rw [List.foldl_cons, ih _ k hk (fun pr hpr => hlab pr (by simp [hpr]))]
    rw [objGet_objInsert_ne _ _ (hlab q (by simp))]
    rw [objGet_objInsert_ne _ _ (Ne.symm hk)]

theorem withOriginShape_objGet (sd : Bool)
    (decP : String → String → Option JsVal)
    (decPs : List String → String → Option JsVal) :
    ∀ (keys : List ((String × CallDesc) × MCRes)) (acc : Obj JsVal),
      (keys.map (fun q => q.1.1)).Nodup →
      (∀ q ∈ keys, (q : (String × CallDesc) × MCRes).1.1 ≠ "_originAddress") →
      ∀ pr ∈ keys,
        objGet (keys.foldl
          (fun acc pr =>
            objInsert (objInsert acc "_originAddress" (.str pr.2.1)) pr.1.1
              (fieldResult sd decP decPs pr.1.2 pr.2.2.1 pr.2.2.2)) acc) pr.1.1
          = some (fieldResult sd decP decPs pr.1.2 pr.2.2.1 pr.2.2.2) := by
  intro keys
  induction keys with
  | nil =>
    intro acc _ _ pr hpr
    cases hpr
  | cons q rest ih =>
    intro acc hnd hoa pr hpr
    simp only [List.map_cons, List.nodup_cons] at hnd
    rcases List.mem_cons.mp hpr with rfl | hpr'
    · rw [List.foldl_cons]
      rw [withOriginShape_foldl_preserve sd decP decPs rest _ pr.1.1
        (hoa pr (by simp)) (fun r hr hh => hnd.1 (hh ▸ List.mem_map_of_mem (fun q => q.1.1) hr))]
      exact objGet_objInsert_self _ _ _
    · rw [List.foldl_cons]
      exact ih _ hnd.2 (fun r hr => hoa r (by simp [hr])) pr hpr'

/-- C7: per-field decode semantics.  In the aggregated result assembly:
a failed raw result yields undefined without any decode (the result is
independent of the decoders), a successful one is decoded against the
single declared output type (scalar decodeParameter) or the list of all
declared types (composite decodeParameters), a decoder throw (none)
yields undefined, skipDecode returns the raw payload for every field,
and the per-field result lands under its own label independently of the
sibling fields of the shape. -/
theorem claim_decodeSemantics
    (decP : String → String → Option JsVal)
    (decPs : List String → String → Option JsVal) :
    (∀ (cd : CallDesc) (data : String),
      fieldResult false decP decPs cd false data = .undef) ∧
    (∀ (cd : CallDesc) (data : String), cd.outputs.length = 1 →
      fieldResult false decP decPs cd true data
        = (decP (cd.outputs.headD ("", "")).2 data).getD .undef) ∧
    (∀ (cd : CallDesc) (data : String), cd.outputs.length ≠ 1 →
      fieldResult false decP decPs cd true data
        = (decPs (cd.outputs.map (fun x => x.2)) data).getD .undef) ∧
    (∀ (cd : CallDesc) (data : String) (success : Bool),
      (∀ t hex, decP t hex = none) → (∀ ts hex, decPs ts hex = none) →
      fieldResult false decP decPs cd success data = .undef) ∧
    (∀ (cd : CallDesc) (data : String) (success : Bool),
      fieldResult true decP decPs cd success data = .str data) ∧
    (∀ (sd : Bool) (keys : List ((String × CallDesc) × MCRes)),
      (keys.map (fun q => q.1.1)).Nodup →
      (∀ q ∈ keys, (q : (String × CallDesc) × MCRes).1.1 ≠ "_originAddress") →
      ∀ pr ∈ keys,
        objGet (withOriginShape sd decP decPs keys) pr.1.1
          = some (fieldResult sd decP decPs pr.1.2 pr.2.2.1 pr.2.2.2)) := by
  refine ⟨?_, ?_, ?_, ?_, ?_, ?_⟩
  · intro cd data
    rfl
  · intro cd data h
    simp [fieldResult, decodeHex, h]
  · intro cd data h
    simp [fieldResult, decodeHex, h]
  · intro cd data success h1 h2
    cases success with
    | false => rfl
    | true =>
      by_cases hlen : cd.outputs.length = 1 <;>
        simp [fieldResult, decodeHex, hlen, h1, h2]
  · intro cd data success
    rfl
  · intro sd keys hnd hoa pr hpr
    exact withOriginShape_objGet sd decP decPs keys [] hnd hoa pr hpr

/-- Concrete decoder used by the decode-semantics witness. -/
def decPW : String → String → Option JsVal := fun t hex =>
  if t = "uint256" ∧ hex = "0x01" then some (.str "1") else none

/-- Concrete composite decoder used by the decode-semantics witness. -/
def decPsW : List String → String → Option JsVal := fun _ _ => none

theorem claim_decodeSemantics_witness :
    fieldResult false decPW decPsW cdA false "0x01" = .undef ∧
    fieldResult false decPW decPsW cdA true "0x01"
      = (decPW (cdA.outputs.headD ("", "")).2 "0x01").getD .undef ∧
    fieldResult true decPW decPsW cdA true "raw" = .str "raw" ∧
    objGet (withOriginShape false decPW decPsW
        [(("sym", cdA), ("A", (true, "0x01")))]) "sym"
      = some (fieldResult false decPW decPsW cdA true "0x01") :=
  ⟨(claim_decodeSemantics decPW decPsW).1 cdA "0x01",
   (claim_decodeSemantics decPW decPsW).2.1 cdA "0x01" (by decide),
   (claim_decodeSemantics decPW decPsW).2.2.2.2.1 cdA "raw" true,
   by
     refine (claim_decodeSemantics decPW decPsW).2.2.2.2.2 false
       [(("sym", cdA), ("A", (true, "0x01")))] (by simp) ?_
       (("sym", cdA), ("A", (true, "0x01"))) (by simp)
     intro q hq
     simp only [List.mem_singleton] at hq
     subst hq
     decide⟩

/-! ## Reserved labels at the public interface -/

/-- Per-call aggregator outcome for the reserved-label example: every
call succeeds with payload "0xR". -/
def gW : MCItem → Bool × String := fun _ => (true, "0xR")

/-- No chunk ever fails in the reserved-label example. -/
def failsNoneW : List MCItem → Bool := fun _ => false

/-- Decoder for the reserved-label example: "0xR" decodes to "42". -/
def decPW2 : String → String → Option JsVal := fun t hex =>
  if t = "uint256" ∧ hex = "0xR" then some (.str "42") else none

/-- Composite decoder for the reserved-label example (unused). -/
def decPsW2 : List String → String → Option JsVal := fun _ _ => none

/-- C10: reserved field labels.  In aggregated mode a shape whose call
field is labeled "data" does not get its decoded value ("42") back
under that label: recoverLabels omits the key "data" and spreads the
value instead (here a string, so its character-index properties), and a
call field labeled "_originAddress" likewise comes back as an empty
object — the returned mapping is label-faithful only for shapes whose
field names avoid "data" and "_originAddress". -/
theorem claim_reservedLabels :
    allModel gW failsNoneW [1] false false decPW2 decPsW2
        [[[("data", FieldVal.call cdA)]]]
      = .ok [[[("0", JsVal.str "4"), ("1", JsVal.str "2")]]] ∧
    objGet [("0", JsVal.str "4"), ("1", JsVal.str "2")] "data" = none ∧
    allModel gW failsNoneW [1] false false decPW2 decPsW2
        [[[("_originAddress", FieldVal.call cdA)]]]
      = .ok [[[]]] :=
  ⟨rfl, rfl, rfl⟩
